import Mathlib

/-!
Verification development for the rusty_ai modal text editor.

The text buffer (a `ropey::Rope` in the source) is embedded as a `List Char`
with ropey's line semantics: lines are separated by a single terminator
character and every line except the last carries its terminator; the number
of lines is the number of terminators plus one.  Editor state, the per-line
syntax-highlight cache, and the shared async request state are embedded as
plain structures, and each editor operation from `src/editor/mod.rs`,
`src/syntax/cache.rs` and `src/async_handler/mod.rs` is translated into a
pure state-passing function.
-/

namespace RustyAi

/-- The newline terminator character used by the editor. -/
def nl : Char := '\n'

/-- Split a buffer into its lines, ropey-style: every line except the last
ends with the terminator, and the last line (possibly empty) has none.
`splitLines "a\nb" = ["a\n", "b"]`, `splitLines "" = [""]`. -/
def splitLines : List Char → List (List Char)
  | [] => [[]]
  | c :: rest =>
    if c = nl then [c] :: splitLines rest
    else
      match splitLines rest with
      | [] => [[c]]
      | h :: t => (c :: h) :: t

/-- `Rope::len_chars`: total character count. -/
def len_chars (b : List Char) : Nat := b.length

/-- `Rope::len_lines`: ropey counts one line per terminator plus a final
(possibly empty) line. -/
def len_lines (b : List Char) : Nat := b.count nl + 1

/-- `Rope::line(i)`: the i-th line including its terminator, if any. -/
def line (b : List Char) (i : Nat) : List Char := (splitLines b).getD i []

/-- `Rope::line_to_char(i)`: char index of the first character of line i. -/
def line_to_char (b : List Char) (i : Nat) : Nat :=
  (((splitLines b).take i).map List.length).sum

/-- `Rope::char_to_line(idx)`: the line containing character idx, i.e. the
number of terminators strictly before idx. -/
def char_to_line (b : List Char) (idx : Nat) : Nat :=
  (b.take idx).count nl

/-- `Rope::insert` / `insert_char`: splice `s` in at char index `idx`. -/
def insertAt (b : List Char) (idx : Nat) (s : List Char) : List Char :=
  b.take idx ++ s ++ b.drop idx

/-- `Rope::remove(s..e)`: delete the half-open char range `[s, e)`. -/
def removeRange (b : List Char) (s e : Nat) : List Char :=
  b.take s ++ b.drop e

/-- Terminator-free length of a line: the number of characters before the
first terminator.  For genuine buffer lines (which contain the terminator
only as a final character, see `not_nl_mem_dropLast_line`) this equals the
line length minus one when the terminator is present, and the full length
otherwise — the "saturating" line length the spec describes. -/
def tfLen (s : List Char) : Nat := (s.takeWhile (fun c => c ≠ nl)).length

/-- The spec's line length: subtract the line terminator when present,
never going below zero. -/
def specLineLen (s : List Char) : Nat :=
  if s.getLast? = some nl then s.length - 1 else s.length

@[simp] theorem splitLines_nil : splitLines [] = [[]] := rfl

theorem splitLines_cons_nl (rest : List Char) :
    splitLines (nl :: rest) = [nl] :: splitLines rest := by
  simp [splitLines]

theorem splitLines_ne_nil (b : List Char) : splitLines b ≠ [] := by
  induction b with
  | nil => simp
  | cons c rest ih =>
    by_cases hc : c = nl
    · simp [splitLines, hc]
    · simp only [splitLines, if_neg hc]
      cases h : splitLines rest with
      | nil => simp
      | cons h' t => simp

theorem splitLines_cons_other {c : Char} (hc : c ≠ nl) {rest : List Char}
    {h : List Char} {t : List (List Char)} (hs : splitLines rest = h :: t) :
    splitLines (c :: rest) = (c :: h) :: t := by
  simp only [splitLines, if_neg hc, hs]

theorem length_splitLines (b : List Char) :
    (splitLines b).length = b.count nl + 1 := by
  induction b with
  | nil => simp
  | cons c rest ih =>
    by_cases hc : c = nl
    · subst hc
      simp [splitLines_cons_nl, ih, List.count_cons]
    · cases h : splitLines rest with
      | nil => exact absurd h (splitLines_ne_nil rest)
      | cons h' t =>
        rw [splitLines_cons_other hc h]
        rw [h] at ih
        simp only [List.length_cons] at ih ⊢
        simpa [List.count_cons, hc] using ih

theorem len_lines_eq_length_splitLines (b : List Char) :
    len_lines b = (splitLines b).length := by
  rw [length_splitLines, len_lines]

theorem len_lines_pos (b : List Char) : 0 < len_lines b := by
  simp [len_lines]

@[simp] theorem line_nil_zero : line [] 0 = [] := rfl

theorem line_cons_nl_zero (rest : List Char) : line (nl :: rest) 0 = [nl] := by
  simp [line, splitLines_cons_nl]

theorem line_cons_nl_succ (rest : List Char) (r : Nat) :
    line (nl :: rest) (r + 1) = line rest r := by
  simp [line, splitLines_cons_nl]

theorem line_cons_other_zero {c : Char} (hc : c ≠ nl) {rest : List Char}
    {h : List Char} {t : List (List Char)} (hs : splitLines rest = h :: t) :
    line (c :: rest) 0 = c :: h := by
  simp [line, splitLines_cons_other hc hs]

theorem line_cons_other_succ {c : Char} (hc : c ≠ nl) (rest : List Char)
    (r : Nat) : line (c :: rest) (r + 1) = line rest (r + 1) := by
  cases hs : splitLines rest with
  | nil => exact absurd hs (splitLines_ne_nil rest)
  | cons h t =>
    simp [line, splitLines_cons_other hc hs, hs]

@[simp] theorem line_to_char_zero (b : List Char) : line_to_char b 0 = 0 := by
  simp [line_to_char]

theorem line_to_char_cons_nl (rest : List Char) (r : Nat) :
    line_to_char (nl :: rest) (r + 1) = 1 + line_to_char rest r := by
  simp [line_to_char, splitLines_cons_nl, Nat.add_comm]

theorem line_to_char_cons_other {c : Char} (hc : c ≠ nl) (rest : List Char)
    (r : Nat) :
    line_to_char (c :: rest) (r + 1) = 1 + line_to_char rest (r + 1) := by
  cases hs : splitLines rest with
  | nil => exact absurd hs (splitLines_ne_nil rest)
  | cons h t =>
    simp only [line_to_char, splitLines_cons_other hc hs, hs, List.take_succ_cons,
      List.map_cons, List.sum_cons, List.length_cons]
    omega

theorem len_lines_cons_nl (rest : List Char) :
    len_lines (nl :: rest) = len_lines rest + 1 := by
  simp [len_lines, List.count_cons, Nat.add_comm, Nat.add_assoc, Nat.add_left_comm]

theorem len_lines_cons_other {c : Char} (hc : c ≠ nl) (rest : List Char) :
    len_lines (c :: rest) = len_lines rest := by
  simp [len_lines, List.count_cons, hc]

theorem tfLen_cons_nl (s : List Char) : tfLen (nl :: s) = 0 := by
  simp [tfLen, List.takeWhile]

theorem tfLen_cons_other {c : Char} (hc : c ≠ nl) (s : List Char) :
    tfLen (c :: s) = tfLen s + 1 := by
  simp [tfLen, List.takeWhile, hc, Nat.add_comm]

theorem tfLen_le_length (s : List Char) : tfLen s ≤ s.length := by
  induction s with
  | nil => simp [tfLen]
  | cons c rest ih =>
    by_cases hc : c = nl
    · subst hc
      simp [tfLen_cons_nl]
    · rw [tfLen_cons_other hc]
      simpa using ih

theorem sub_one_le_specLineLen (s : List Char) :
    s.length - 1 ≤ specLineLen s := by
  unfold specLineLen
  split <;> omega

theorem specLineLen_le_length (s : List Char) : specLineLen s ≤ s.length := by
  unfold specLineLen
  split <;> omega

/-- Structural shape of buffer lines: a line produced by `splitLines`
contains the terminator at most as its final character. -/
theorem not_nl_mem_dropLast_line (b : List Char) (r : Nat) :
    nl ∉ (line b r).dropLast := by
  induction b generalizing r with
  | nil =>
    cases r <;> simp [line, splitLines]
  | cons c rest ih =>
    by_cases hc : c = nl
    · subst hc
      cases r with
      | zero => simp [line_cons_nl_zero]
      | succ r => rw [line_cons_nl_succ]; exact ih r
    · cases hs : splitLines rest with
      | nil => exact absurd hs (splitLines_ne_nil rest)
      | cons h t =>
        cases r with
        | zero =>
          rw [line_cons_other_zero hc hs]
          have ih0 := ih 0
          rw [line, hs] at ih0
          simp only [List.getD_cons_zero] at ih0
          cases h with
          | nil => simp
          | cons x xs =>
            rw [List.dropLast_cons₂]
            intro hmem
            rcases List.mem_cons.mp hmem with h1 | h2
            · exact hc h1.symm
            · exact ih0 h2
        | succ r =>
          rw [line_cons_other_succ hc]
          exact ih (r + 1)

/-- For lines of the buffer the spec's "length minus terminator" notion
agrees with the terminator-free length. -/
theorem specLineLen_eq_tfLen {s : List Char} (hs : nl ∉ s.dropLast) :
    specLineLen s = tfLen s := by
  induction s with
  | nil => rfl
  | cons c rest ih =>
    cases rest with
    | nil =>
      by_cases hc : c = nl
      · subst hc
        simp [specLineLen, tfLen_cons_nl]
      · simp [specLineLen, tfLen_cons_other hc, tfLen,
          Option.some_inj, hc]
    | cons d ds =>
      rw [List.dropLast_cons₂] at hs
      have hcnl : c ≠ nl := fun h => hs (by simp [h])
      have hrest : nl ∉ (d :: ds).dropLast := fun h => hs (by simp [h])
      have ihr := ih hrest
      rw [tfLen_cons_other hcnl, ← ihr]
      unfold specLineLen
      rw [List.getLast?_cons_cons]
      split <;> simp_all

theorem line_cons_other_zero_eq {c : Char} (hc : c ≠ nl) (Y : List Char) :
    line (c :: Y) 0 = c :: line Y 0 := by
  cases hs : splitLines Y with
  | nil => exact absurd hs (splitLines_ne_nil Y)
  | cons h t =>
    rw [line_cons_other_zero hc hs]
    simp [line, hs]

theorem insertAt_zero (b s : List Char) : insertAt b 0 s = s ++ b := by
  simp [insertAt]

theorem insertAt_cons_succ (x : Char) (l : List Char) (i : Nat) (s : List Char) :
    insertAt (x :: l) (i + 1) s = x :: insertAt l i s := by
  simp [insertAt]

theorem removeRange_cons_succ (x : Char) (l : List Char) (s e : Nat) :
    removeRange (x :: l) (s + 1) (e + 1) = x :: removeRange l s e := by
  simp [removeRange]

theorem removeRange_zero_one (x : Char) (l : List Char) :
    removeRange (x :: l) 0 1 = l := by
  simp [removeRange]

theorem count_insertAt (b : List Char) (i : Nat) (s : List Char) (x : Char) :
    (insertAt b i s).count x = b.count x + s.count x := by
  unfold insertAt
  rw [List.count_append, List.count_append]
  have h := congrArg (List.count x) (List.take_append_drop i b)
  rw [List.count_append] at h
  omega

theorem tfLen_insertAt {s : List Char} {c : Nat} {ch : Char}
    (hch : ch ≠ nl) (hc : c ≤ tfLen s) :
    tfLen (insertAt s c [ch]) = tfLen s + 1 := by
  induction s generalizing c with
  | nil =>
    simp [tfLen] at hc
    subst hc
    rw [insertAt_zero, List.append_nil, tfLen_cons_other hch]
  | cons x xs ih =>
    cases c with
    | zero =>
      rw [insertAt_zero]
      simp [tfLen_cons_other hch]
    | succ c' =>
      by_cases hx : x = nl
      · subst hx
        rw [tfLen_cons_nl] at hc
        omega
      · rw [tfLen_cons_other hx] at hc
        rw [insertAt_cons_succ, tfLen_cons_other hx, tfLen_cons_other hx,
          ih (by omega)]

theorem tfLen_removeRange {s : List Char} {d : Nat} (hd : d < tfLen s) :
    tfLen (removeRange s d (d + 1)) = tfLen s - 1 := by
  induction s generalizing d with
  | nil => simp [tfLen] at hd
  | cons x xs ih =>
    by_cases hx : x = nl
    · subst hx
      rw [tfLen_cons_nl] at hd
      omega
    · rw [tfLen_cons_other hx] at hd
      cases d with
      | zero =>
        rw [removeRange_zero_one, tfLen_cons_other hx]
        omega
      | succ d' =>
        have hd' : d' < tfLen xs := by omega
        rw [removeRange_cons_succ, tfLen_cons_other hx, tfLen_cons_other hx,
          ih hd']
        omega

theorem char_to_line_lt_len_lines (b : List Char) (i : Nat) :
    char_to_line b i < len_lines b := by
  have h : (b.take i).count nl ≤ b.count nl :=
    (List.take_sublist i b).count_le nl
  unfold char_to_line len_lines
  omega

@[simp] theorem char_to_line_zero (b : List Char) : char_to_line b 0 = 0 := by
  simp [char_to_line]

theorem char_to_line_cons_nl (rest : List Char) (j : Nat) :
    char_to_line (nl :: rest) (j + 1) = char_to_line rest j + 1 := by
  simp [char_to_line, List.count_cons]

theorem char_to_line_cons_other {c : Char} (hc : c ≠ nl) (rest : List Char)
    (j : Nat) : char_to_line (c :: rest) (j + 1) = char_to_line rest j := by
  simp [char_to_line, List.count_cons, hc]

theorem line_zero_of_splitLines {rest h : List Char} {t : List (List Char)}
    (hs : splitLines rest = h :: t) : line rest 0 = h := by
  simp [line, hs]

/-- Core validity of positions computed from a character index: the char
at index `i` lies in line `char_to_line b i` at a column that never
exceeds the terminator-free line length. -/
theorem position_core (b : List Char) (i : Nat) (hi : i < b.length) :
    line_to_char b (char_to_line b i) ≤ i ∧
    i - line_to_char b (char_to_line b i) ≤ tfLen (line b (char_to_line b i)) := by
  induction b generalizing i with
  | nil => simp at hi
  | cons c rest ih =>
    by_cases hc : c = nl
    · subst hc
      cases i with
      | zero =>
        simp [line_cons_nl_zero]
      | succ j =>
        have hj : j < rest.length := by simpa using hi
        have := ih j hj
        rw [char_to_line_cons_nl, line_cons_nl_succ, line_to_char_cons_nl]
        omega
    · cases i with
      | zero =>
        simp
      | succ j =>
        have hj : j < rest.length := by simpa using hi
        have hih := ih j hj
        rw [char_to_line_cons_other hc]
        cases hr : char_to_line rest j with
        | zero =>
          rw [hr] at hih
          rw [line_cons_other_zero_eq hc, line_to_char_zero,
            tfLen_cons_other hc]
          rw [line_to_char_zero] at hih
          omega
        | succ r'' =>
          rw [hr] at hih
          rw [line_cons_other_succ hc, line_to_char_cons_other hc]
          omega

/-- Converse direction: a within-line column `c ≤ tfLen` of line `r` maps
to a char index that is in range and whose containing line is again `r`. -/
theorem char_to_line_of_line_col (b : List Char) (r c : Nat)
    (hr : r < len_lines b) (hc : c ≤ tfLen (line b r)) :
    line_to_char b r + c ≤ b.length ∧
    char_to_line b (line_to_char b r + c) = r := by
  induction b generalizing r c with
  | nil =>
    have hr0 : r = 0 := by
      simp [len_lines] at hr
      omega
    subst hr0
    simp [tfLen, line, splitLines] at hc
    simp [hc, char_to_line]
  | cons c0 rest ih =>
    by_cases hc0 : c0 = nl
    · subst hc0
      cases r with
      | zero =>
        rw [line_cons_nl_zero] at hc
        have : c = 0 := by
          have := tfLen_cons_nl ([] : List Char)
          simp [tfLen] at hc
          omega
        subst this
        simp
      | succ r' =>
        rw [len_lines_cons_nl] at hr
        rw [line_cons_nl_succ] at hc
        have hih := ih r' c (by omega) hc
        rw [line_to_char_cons_nl]
        have hidx : 1 + line_to_char rest r' + c
            = (line_to_char rest r' + c) + 1 := by omega
        rw [hidx, char_to_line_cons_nl]
        simp only [List.length_cons]
        omega
    · cases hs : splitLines rest with
      | nil => exact absurd hs (splitLines_ne_nil rest)
      | cons h t =>
        cases r with
        | zero =>
          rw [line_cons_other_zero hc0 hs, tfLen_cons_other hc0] at hc
          cases c with
          | zero => simp
          | succ c' =>
            have hc' : c' ≤ tfLen (line rest 0) := by
              rw [line_zero_of_splitLines hs]
              omega
            have hih := ih 0 c' (len_lines_pos rest) hc'
            rw [line_to_char_zero] at hih ⊢
            rw [Nat.zero_add] at hih ⊢
            rw [char_to_line_cons_other hc0]
            simp only [List.length_cons]
            omega
        | succ r' =>
          rw [len_lines_cons_other hc0] at hr
          rw [line_cons_other_succ hc0] at hc
          have hih := ih (r' + 1) c hr hc
          rw [line_to_char_cons_other hc0]
          have hidx : 1 + line_to_char rest (r' + 1) + c
              = (line_to_char rest (r' + 1) + c) + 1 := by omega
          rw [hidx, char_to_line_cons_other hc0]
          simp only [List.length_cons]
          omega

/-- Deleting the character just before the start of line `r ≥ 1` (which is
the terminator of line `r - 1`) removes exactly one terminator. -/
theorem count_removeRange_before_line (b : List Char) (r : Nat)
    (hr1 : 1 ≤ r) (hr2 : r < len_lines b) :
    1 ≤ line_to_char b r ∧
    (removeRange b (line_to_char b r - 1) (line_to_char b r)).count nl
      = b.count nl - 1 := by
  induction b generalizing r with
  | nil =>
    simp [len_lines] at hr2
    omega
  | cons c0 rest ih =>
    by_cases hc0 : c0 = nl
    · subst hc0
      cases r with
      | zero => omega
      | succ r' =>
        cases r' with
        | zero =>
          rw [line_to_char_cons_nl, line_to_char_zero]
          constructor
          · omega
          · rw [show (1 : Nat) + 0 - 1 = 0 from rfl,
              show (1 : Nat) + 0 = 0 + 1 from rfl]
            rw [show removeRange (nl :: rest) 0 (0 + 1) = rest from
              removeRange_zero_one nl rest]
            simp [List.count_cons]
        | succ r'' =>
          rw [len_lines_cons_nl] at hr2
          have hih := ih (r'' + 1) (by omega) (by omega)
          rw [line_to_char_cons_nl]
          have hcount : r'' + 1 ≤ rest.count nl := by
            have := hr2
            simp [len_lines] at this
            omega
          constructor
          · omega
          · have h1 : 1 + line_to_char rest (r'' + 1) - 1
                = (line_to_char rest (r'' + 1) - 1) + 1 := by omega
            have h2 : 1 + line_to_char rest (r'' + 1)
                = line_to_char rest (r'' + 1) + 1 := by omega
            rw [h1, h2]
            have h3 : line_to_char rest (r'' + 1)
                = (line_to_char rest (r'' + 1) - 1) + 1 := by omega
            rw [h3, removeRange_cons_succ, ← h3]
            simp only [List.count_cons, beq_self_eq_true, if_true]
            omega
    · cases r with
      | zero => omega
      | succ r' =>
        rw [len_lines_cons_other hc0] at hr2
        have hih := ih (r' + 1) (by omega) hr2
        rw [line_to_char_cons_other hc0]
        constructor
        · omega
        · have h1 : 1 + line_to_char rest (r' + 1) - 1
              = (line_to_char rest (r' + 1) - 1) + 1 := by omega
          have h2 : 1 + line_to_char rest (r' + 1)
              = line_to_char rest (r' + 1) + 1 := by omega
          rw [h1, h2]
          have h3 : line_to_char rest (r' + 1)
              = (line_to_char rest (r' + 1) - 1) + 1 := by omega
          rw [h3, removeRange_cons_succ, ← h3]
          simp only [List.count_cons, beq_iff_eq, if_neg hc0]
          omega

/-- Inserting a non-terminator character inside line `r` (at a column not
past its terminator) rewrites exactly that line, splicing the character in. -/
theorem line_insertAt (b : List Char) (r c : Nat) (ch : Char)
    (hr : r < len_lines b) (hc : c ≤ tfLen (line b r)) (hch : ch ≠ nl) :
    line (insertAt b (line_to_char b r + c) [ch]) r
      = insertAt (line b r) c [ch] := by
  induction b generalizing r c with
  | nil =>
    have hr0 : r = 0 := by
      simp [len_lines] at hr
      omega
    subst hr0
    simp [tfLen, line, splitLines] at hc
    subst hc
    rw [line_to_char_zero, Nat.add_zero, insertAt_zero, List.append_nil,
      line_cons_other_zero_eq hch, insertAt_zero]
    simp [insertAt]
  | cons c0 rest ih =>
    by_cases hc0 : c0 = nl
    · subst hc0
      cases r with
      | zero =>
        rw [line_cons_nl_zero] at hc ⊢
        have hczero : c = 0 := by
          have h0 : tfLen [nl] = 0 := tfLen_cons_nl []
          omega
        subst hczero
        rw [line_to_char_zero, Nat.add_zero, insertAt_zero, insertAt_zero]
        rw [show ([ch] ++ nl :: rest) = ch :: nl :: rest from rfl,
          line_cons_other_zero_eq hch, line_cons_nl_zero]
        rfl
      | succ r' =>
        rw [len_lines_cons_nl] at hr
        rw [line_cons_nl_succ] at hc ⊢
        rw [line_to_char_cons_nl]
        have hidx : 1 + line_to_char rest r' + c
            = (line_to_char rest r' + c) + 1 := by omega
        rw [hidx, insertAt_cons_succ, line_cons_nl_succ]
        exact ih r' c (by omega) hc
    · cases hs : splitLines rest with
      | nil => exact absurd hs (splitLines_ne_nil rest)
      | cons h t =>
        cases r with
        | zero =>
          rw [line_cons_other_zero hc0 hs] at hc ⊢
          rw [line_to_char_zero, Nat.zero_add]
          cases c with
          | zero =>
            rw [insertAt_zero, insertAt_zero,
              show ([ch] ++ c0 :: rest) = ch :: c0 :: rest from rfl,
              line_cons_other_zero_eq hch, line_cons_other_zero hc0 hs]
            rfl
          | succ c' =>
            rw [tfLen_cons_other hc0] at hc
            have hc' : c' ≤ tfLen (line rest 0) := by
              rw [line_zero_of_splitLines hs]
              omega
            have hih := ih 0 c' (len_lines_pos rest) hc'
            rw [line_to_char_zero, Nat.zero_add] at hih
            rw [insertAt_cons_succ, line_cons_other_zero_eq hc0, hih,
              line_zero_of_splitLines hs, insertAt_cons_succ]
        | succ r' =>
          rw [len_lines_cons_other hc0] at hr
          rw [line_cons_other_succ hc0] at hc ⊢
          rw [line_to_char_cons_other hc0]
          have hidx : 1 + line_to_char rest (r' + 1) + c
              = (line_to_char rest (r' + 1) + c) + 1 := by omega
          rw [hidx, insertAt_cons_succ, line_cons_other_succ hc0]
          exact ih (r' + 1) c hr hc

/-- Deleting a character strictly inside the terminator-free part of line
`r` rewrites exactly that line and removes no terminator. -/
theorem line_removeRange (b : List Char) (r d : Nat)
    (hr : r < len_lines b) (hd : d < tfLen (line b r)) :
    line (removeRange b (line_to_char b r + d) (line_to_char b r + d + 1)) r
      = removeRange (line b r) d (d + 1) ∧
    (removeRange b (line_to_char b r + d) (line_to_char b r + d + 1)).count nl
      = b.count nl := by
  induction b generalizing r d with
  | nil =>
    have hr0 : r = 0 := by
      simp [len_lines] at hr
      omega
    subst hr0
    simp [tfLen, line, splitLines] at hd
  | cons c0 rest ih =>
    by_cases hc0 : c0 = nl
    · subst hc0
      cases r with
      | zero =>
        rw [line_cons_nl_zero] at hd
        rw [tfLen_cons_nl] at hd
        omega
      | succ r' =>
        rw [len_lines_cons_nl] at hr
        rw [line_cons_nl_succ] at hd ⊢
        rw [line_to_char_cons_nl]
        have hidx1 : 1 + line_to_char rest r' + d
            = (line_to_char rest r' + d) + 1 := by omega
        rw [hidx1, removeRange_cons_succ, line_cons_nl_succ]
        have hih := ih r' d (by omega) hd
        refine ⟨hih.1, ?_⟩
        simp only [List.count_cons, beq_self_eq_true, if_true]
        omega
    · cases hs : splitLines rest with
      | nil => exact absurd hs (splitLines_ne_nil rest)
      | cons h t =>
        cases r with
        | zero =>
          rw [line_cons_other_zero hc0 hs] at hd ⊢
          rw [line_to_char_zero, Nat.zero_add]
          cases d with
          | zero =>
            rw [removeRange_zero_one, line_zero_of_splitLines hs]
            constructor
            · rfl
            · simp [List.count_cons, beq_iff_eq, hc0]
          | succ d' =>
            rw [tfLen_cons_other hc0] at hd
            have hd' : d' < tfLen (line rest 0) := by
              rw [line_zero_of_splitLines hs]
              omega
            have hih := ih 0 d' (len_lines_pos rest) hd'
            rw [line_to_char_zero, Nat.zero_add] at hih
            rw [show d' + 1 + 1 = (d' + 1) + 1 from rfl, removeRange_cons_succ,
              line_cons_other_zero_eq hc0, hih.1, line_zero_of_splitLines hs,
              removeRange_cons_succ]
            refine ⟨rfl, ?_⟩
            simp only [List.count_cons, beq_iff_eq, if_neg hc0]
            omega
        | succ r' =>
          rw [len_lines_cons_other hc0] at hr
          rw [line_cons_other_succ hc0] at hd ⊢
          rw [line_to_char_cons_other hc0]
          have hidx1 : 1 + line_to_char rest (r' + 1) + d
              = (line_to_char rest (r' + 1) + d) + 1 := by omega
          rw [hidx1, removeRange_cons_succ, line_cons_other_succ hc0]
          have hih := ih (r' + 1) d hr hd
          refine ⟨hih.1, ?_⟩
          simp only [List.count_cons, beq_iff_eq, if_neg hc0]
          omega

/-- Removing the single character at index `j < b.length` decreases the
count of `x` by one exactly when that character is `x`. -/
theorem count_removeRange_single (b : List Char) (j : Nat) (hj : j < b.length)
    (x : Char) :
    (removeRange b j (j + 1)).count x
        + (if b.getD j default = x then 1 else 0) = b.count x := by
  have hdecomp : b.drop j = b.getD j default :: b.drop (j + 1) := by
    rw [List.getD_eq_getElem b default hj]
    exact List.drop_eq_getElem_cons hj
  conv_rhs => rw [← List.take_append_drop j b, hdecomp]
  unfold removeRange
  rw [List.count_append, List.count_append, List.count_cons]
  simp only [beq_iff_eq]
  omega

theorem length_insertAt (b : List Char) (i : Nat) (s : List Char)
    (hi : i ≤ b.length) :
    (insertAt b i s).length = b.length + s.length := by
  unfold insertAt
  simp [List.length_take, List.length_drop]
  omega

/-- `syntax::Style`: the closed per-character style enumeration. -/
inductive Style where
  | Normal
  | Keyword
  | Function
  | Type
  | String
  | Number
  | Comment
  | Variable
  | Constant
  | Operator
  | Error
  | Selection
  deriving DecidableEq, Repr

/-- `syntax::cache::SyntaxCache`: the per-line style cache.  The `HashMap`
and `HashSet` are embedded by their lookup functions. -/
structure SyntaxCache where
  line_styles : Nat → Option (List Style)
  dirty_lines : Nat → Bool
  last_content_length : Nat

/-- `SyntaxCache::new`. -/
def SyntaxCache.new : SyntaxCache :=
  { line_styles := fun _ => none, dirty_lines := fun _ => false,
    last_content_length := 0 }

/-- `SyntaxCache::mark_line_dirty`. -/
def mark_line_dirty (cache : SyntaxCache) (line_number : Nat) : SyntaxCache :=
  { cache with
    dirty_lines := fun i => if i = line_number then true else cache.dirty_lines i }

/-- `SyntaxCache::mark_range_dirty`: the source iterates the inclusive
range `start_line..=end_line`, inserting each index into the dirty set. -/
def mark_range_dirty (cache : SyntaxCache) (start_line end_line : Nat) :
    SyntaxCache :=
  (List.range (end_line + 1 - start_line)).foldl
    (fun acc k => mark_line_dirty acc (start_line + k)) cache

/-- `SyntaxCache::mark_all_dirty`: clears both the style map and the dirty
set. -/
def mark_all_dirty (cache : SyntaxCache) : SyntaxCache :=
  { cache with line_styles := fun _ => none, dirty_lines := fun _ => false }

/-- `SyntaxCache::get_cached_style`: looks up only the style map; the dirty
set is not consulted. -/
def get_cached_style (cache : SyntaxCache) (line_number col : Nat) :
    Option Style :=
  (cache.line_styles line_number).bind fun styles =>
    if h : col < styles.length then some (styles.get ⟨col, h⟩) else none

/-- `SyntaxCache::cache_line_styles`: store the style vector and remove the
line from the dirty set. -/
def cache_line_styles (cache : SyntaxCache) (line_number : Nat)
    (styles : List Style) : SyntaxCache :=
  { cache with
    line_styles := fun i =>
      if i = line_number then some styles else cache.line_styles i,
    dirty_lines := fun i =>
      if i = line_number then false else cache.dirty_lines i }

/-- `SyntaxCache::is_line_cached`: present in the map and not dirty. -/
def is_line_cached (cache : SyntaxCache) (line_number : Nat) : Bool :=
  (cache.line_styles line_number).isSome && !cache.dirty_lines line_number

/-- `editor::RequestState` (the source spells it `Proccessing`). -/
inductive RequestState where
  | Idle
  | Proccessing
  | Error (message : String)
  deriving DecidableEq

/-- `async_handler::ApiResponse`. -/
structure ApiResponse where
  content : List Char
  error : Option String
  deriving DecidableEq

/-- `async_handler::EditorState`: the state shared between the foreground
and the worker behind `Arc<Mutex<..>>`. -/
structure EditorState where
  request_state : RequestState
  api_response : Option ApiResponse
  deriving DecidableEq

/-- `EditorState::new`. -/
def EditorState.new : EditorState :=
  { request_state := RequestState.Idle, api_response := none }

/-- `EditorState::set_error`. -/
def EditorState.set_error (state : EditorState) (e : String) : EditorState :=
  { state with request_state := RequestState.Error e }

/-- `editor::Mode`. -/
inductive Mode where
  | Normal
  | Insert
  | Select
  deriving DecidableEq

/-- `editor::Editor`: the fields the verified operations touch.  The
tree-sitter highlighter (an external collaborator) is embedded as an
optional function from buffer contents to char-range/style pairs, matching
the `Option<SyntaxHighlighter>` field and the composition of
`highlight_buffer` with `convert_highlights_to_char_ranges`. -/
structure Editor where
  buffer : List Char
  cursor_row : Nat
  cursor_col : Nat
  mode : Mode
  modified : Bool
  syntax_cache : SyntaxCache
  syntax_highlighter : Option (List Char → List ((Nat × Nat) × Style))
  syntax_highlights : List ((Nat × Nat) × Style)
  selection_start : Option (Nat × Nat)
  selection_active : Bool
  shared_state : EditorState
  needs_response_check : Bool

/-- `Editor::char_idx_from_position` (reads only the buffer). -/
def char_idx_from_position (b : List Char) (row col : Nat) : Nat :=
  if row ≥ len_lines b then len_chars b
  else
    let line_start_idx := line_to_char b row
    let line_len := (line b row).length
    let clamped_col := min col line_len
    line_start_idx + clamped_col

/-- `Editor::position_from_char_idx` (reads only the buffer). -/
def position_from_char_idx (b : List Char) (char_idx : Nat) : Nat × Nat :=
  if char_idx ≥ len_chars b then
    let last_line_idx := len_lines b - 1
    let last_line_len :=
      if last_line_idx < len_lines b then (line b last_line_idx).length - 1
      else 0
    (last_line_idx, last_line_len)
  else
    let line_idx := char_to_line b char_idx
    let line_start_char := line_to_char b line_idx
    (line_idx, char_idx - line_start_char)

/-- `Editor::get_char_idx`. -/
def get_char_idx (e : Editor) : Nat :=
  line_to_char e.buffer e.cursor_row + e.cursor_col

/-- `Editor::get_selection_range`: normalize anchor and cursor to an
ordered half-open character range. -/
def get_selection_range (e : Editor) : Option (Nat × Nat) :=
  if !e.selection_active || e.selection_start.isNone then none
  else
    match e.selection_start with
    | none => none
    | some sel =>
      let start_idx := char_idx_from_position e.buffer sel.1 sel.2
      let end_idx := char_idx_from_position e.buffer e.cursor_row e.cursor_col
      if start_idx ≤ end_idx then some (start_idx, end_idx)
      else some (end_idx, start_idx)

/-- `Editor::is_position_selected`. -/
def is_position_selected (e : Editor) (row col : Nat)
    (selection_range : Option (Nat × Nat)) : Bool :=
  match selection_range with
  | some range =>
    let pos_idx := char_idx_from_position e.buffer row col
    decide (range.1 ≤ pos_idx) && decide (pos_idx < range.2)
  | none => false

/-- `Editor::invalidate_syntax_at_line`: mark this line and all subsequent
lines dirty via `mark_range_dirty(line, total_lines)`. -/
def invalidate_syntax_at_line (e : Editor) (l : Nat) : Editor :=
  let total_lines := len_lines e.buffer
  { e with syntax_cache := mark_range_dirty e.syntax_cache l total_lines }

/-- `Editor::update_syntax_highlighting`: full-document refresh; clears the
cache when the total character count changed since the last update. -/
def update_syntax_highlighting (e : Editor) : Editor :=
  let current_len := len_chars e.buffer
  let need_full_update := current_len ≠ e.syntax_cache.last_content_length
  let cache1 :=
    if need_full_update then
      { mark_all_dirty e.syntax_cache with last_content_length := current_len }
    else e.syntax_cache
  match e.syntax_highlighter with
  | some highlight =>
    { e with syntax_cache := cache1, syntax_highlights := highlight e.buffer }
  | none => { e with syntax_cache := cache1 }

/-- `Editor::highlight_line`: if the line is cached and clean return the
cached vector, otherwise compute a per-character style vector (selection
first, then the first matching syntax-highlight range, else Normal), cache
it, and return it. -/
def highlight_line (e : Editor) (line_number : Nat) : Editor × List Style :=
  if is_line_cached e.syntax_cache line_number then
    (e, (e.syntax_cache.line_styles line_number).getD [])
  else
    let l := line e.buffer line_number
    let line_start_char := line_to_char e.buffer line_number
    let sel := get_selection_range e
    let line_styles := (List.range l.length).map fun i =>
      let char_idx := line_start_char + i
      if is_position_selected e line_number i sel then Style.Selection
      else
        match e.syntax_highlights.find? fun p =>
            decide (p.1.1 ≤ char_idx) && decide (char_idx < p.1.2) with
        | some p => p.2
        | none => Style.Normal
    ({ e with
        syntax_cache := cache_line_styles e.syntax_cache line_number line_styles },
      line_styles)

/-- `Editor::get_style_at`: selection check, then the cached style, then a
full recompute of the line via `highlight_line`. -/
def get_style_at (e : Editor) (char_idx : Nat) : Editor × Style :=
  let position := position_from_char_idx e.buffer char_idx
  let l := position.1
  let col := position.2
  if is_position_selected e l col (get_selection_range e) then
    (e, Style.Selection)
  else
    match get_cached_style e.syntax_cache l col with
    | some style => (e, style)
    | none =>
      let res := highlight_line e l
      if h : col < res.2.length then (res.1, res.2.get ⟨col, h⟩)
      else (res.1, Style.Normal)

/-- `Editor::move_cursor_up`. -/
def move_cursor_up (e : Editor) : Editor :=
  if e.cursor_row > 0 then
    let cursor_row := e.cursor_row - 1
    let l := line e.buffer cursor_row
    let line_len := l.length - 1
    let cursor_col := if e.cursor_col > line_len then line_len else e.cursor_col
    { e with cursor_row := cursor_row, cursor_col := cursor_col }
  else e

/-- `Editor::move_cursor_down`. -/
def move_cursor_down (e : Editor) : Editor :=
  let total_lines := len_lines e.buffer
  let last_line_index := if total_lines > 0 then total_lines - 1 else 0
  if e.cursor_row < last_line_index then
    let cursor_row := e.cursor_row + 1
    let l := line e.buffer cursor_row
    let line_len := if l.length > 0 then l.length - 1 else 0
    let cursor_col := if e.cursor_col > line_len then line_len else e.cursor_col
    { e with cursor_row := cursor_row, cursor_col := cursor_col }
  else e

/-- `Editor::move_cursor_left`. -/
def move_cursor_left (e : Editor) : Editor :=
  if e.cursor_col > 0 then { e with cursor_col := e.cursor_col - 1 }
  else if e.cursor_row > 0 then
    let cursor_row := e.cursor_row - 1
    { e with cursor_row := cursor_row,
             cursor_col := (line e.buffer cursor_row).length - 1 }
  else e

/-- `Editor::move_cursor_right`: in Insert mode the column may advance up
to the full line length (terminator included); otherwise it stops one
short, and wraps to the start of the next line at the end. -/
def move_cursor_right (e : Editor) : Editor :=
  let current_line := line e.buffer e.cursor_row
  let line_len :=
    if e.mode = Mode.Insert then current_line.length
    else current_line.length - 1
  if e.cursor_col < line_len then { e with cursor_col := e.cursor_col + 1 }
  else if e.cursor_row < len_lines e.buffer - 1 then
    let total_lines := len_lines e.buffer
    let last_line_index := if total_lines > 0 then total_lines - 1 else 0
    if e.cursor_row < last_line_index then
      let cursor_row := e.cursor_row + 1
      let l := line e.buffer cursor_row
      let ll := if l.length > 0 then l.length - 1 else 0
      let cursor_col := if 0 > ll then ll else 0
      { e with cursor_row := cursor_row, cursor_col := cursor_col }
    else e
  else e

/-- `Editor::clamp_cursor`. -/
def clamp_cursor (e : Editor) : Editor :=
  let total_lines := len_lines e.buffer
  if total_lines = 0 then { e with cursor_row := 0, cursor_col := 0 }
  else
    let cursor_row :=
      if e.cursor_row ≥ total_lines then total_lines - 1 else e.cursor_row
    let line_len := (line e.buffer cursor_row).length - 1
    let cursor_col :=
      if e.cursor_col > line_len then line_len else e.cursor_col
    { e with cursor_row := cursor_row, cursor_col := cursor_col }

/-- `Editor::move_to_end_of_line`. -/
def move_to_end_of_line (e : Editor) : Editor :=
  let l := line e.buffer e.cursor_row
  let line_len := l.length - 1
  clamp_cursor { e with cursor_col := line_len }

/-- `Editor::move_to_start_of_line`. -/
def move_to_start_of_line (e : Editor) : Editor :=
  { e with cursor_col := 0 }

/-- `Editor::move_to_start_of_buffer`. -/
def move_to_start_of_buffer (e : Editor) : Editor :=
  { e with cursor_row := 0, cursor_col := 0 }

/-- `Editor::move_to_end_of_buffer`. -/
def move_to_end_of_buffer (e : Editor) : Editor :=
  let total_lines := len_lines e.buffer
  if total_lines = 0 then { e with cursor_row := 0, cursor_col := 0 }
  else
    let last_line_idx := total_lines - 1
    let l := line e.buffer last_line_idx
    let line_len := l.length - 1
    clamp_cursor { e with cursor_row := last_line_idx, cursor_col := line_len }

/-- `Editor::insert_char`: insert at the cursor, advance the column, and
invalidate from the cursor row onward. -/
def insert_char (e : Editor) (c : Char) : Editor :=
  let char_idx := get_char_idx e
  let e1 := { e with buffer := insertAt e.buffer char_idx [c],
                     cursor_col := e.cursor_col + 1,
                     modified := true }
  invalidate_syntax_at_line e1 e1.cursor_row

/-- `Editor::insert_newline`. -/
def insert_newline (e : Editor) : Editor :=
  let char_idx := get_char_idx e
  let e1 := { e with buffer := insertAt e.buffer char_idx [nl],
                     cursor_row := e.cursor_row + 1,
                     cursor_col := 0,
                     modified := true }
  invalidate_syntax_at_line e1 (e1.cursor_row - 1)

/-- `Editor::delete_char_before_cursor`: Backspace.  In the line-join case
(`cursor_col == 0`) the new column is the merged line's full
`len_chars()`. -/
def delete_char_before_cursor (e : Editor) : Editor :=
  let char_idx := get_char_idx e
  if char_idx > 0 then
    let current_line := e.cursor_row
    let buffer := removeRange e.buffer (char_idx - 1) char_idx
    let e1 :=
      if e.cursor_col > 0 then
        { e with buffer := buffer, cursor_col := e.cursor_col - 1,
                 modified := true }
      else if e.cursor_row > 0 then
        let cursor_row := e.cursor_row - 1
        { e with buffer := buffer, cursor_row := cursor_row,
                 cursor_col := (line buffer cursor_row).length,
                 modified := true }
      else { e with buffer := buffer, modified := true }
    invalidate_syntax_at_line e1 (current_line - 1)
  else e

/-- `Editor::delete_char_at_cursor`: Delete. -/
def delete_char_at_cursor (e : Editor) : Editor :=
  let char_idx := get_char_idx e
  if char_idx < len_chars e.buffer then
    let current_line := e.cursor_row
    let e1 := { e with buffer := removeRange e.buffer char_idx (char_idx + 1),
                       modified := true }
    let e2 :=
      if e1.cursor_row < len_lines e1.buffer then
        let new_line_len := (line e1.buffer e1.cursor_row).length
        if new_line_len ≤ 1 ∧ e1.cursor_col = 0 ∧ e1.cursor_row > 0 then
          let cursor_row := e1.cursor_row - 1
          { e1 with cursor_row := cursor_row,
                    cursor_col := (line e1.buffer cursor_row).length - 1 }
        else if e1.cursor_col ≥ new_line_len then
          { e1 with cursor_col := new_line_len - 1 }
        else e1
      else e1
    invalidate_syntax_at_line e2 current_line
  else e

/-- `Editor::delete_selection`: remove the normalized range, put the cursor
at the start of the deleted region, return to Normal mode and clear the
selection, then invalidate from the first affected line. -/
def delete_selection (e : Editor) : Editor :=
  match get_selection_range e with
  | some range =>
    let start_idx := range.1
    let end_idx := range.2
    let start_line := char_to_line e.buffer start_idx
    let buffer := removeRange e.buffer start_idx end_idx
    let pos := position_from_char_idx buffer start_idx
    let e1 := { e with buffer := buffer, cursor_row := pos.1,
                       cursor_col := pos.2, mode := Mode.Normal,
                       selection_active := false, selection_start := none,
                       modified := true }
    invalidate_syntax_at_line e1 start_line
  | none => e

/-- The Esc arm of `Editor::handle_select_mode`: cancel the selection and
return to Normal mode; nothing else (in particular no cache access). -/
def handle_select_mode_esc (e : Editor) : Editor :=
  { e with mode := Mode.Normal, selection_active := false,
           selection_start := none }

/-- `Editor::check_api_responses`: take the pending response under the
lock; on success with nonempty content append it at the current end of the
buffer, refresh highlighting, and move the cursor to the end. -/
def check_api_responses (e : Editor) : Editor :=
  if !e.needs_response_check then e
  else
    let response_to_process := e.shared_state.api_response
    let e0 :=
      { e with shared_state := { e.shared_state with api_response := none } }
    match response_to_process with
    | some response =>
      let e1 :=
        if response.error = none ∧ response.content ≠ [] then
          let char_idx := len_chars e0.buffer
          let ea := { e0 with
            buffer := insertAt e0.buffer char_idx response.content }
          let eb := update_syntax_highlighting ea
          let new_lines := len_lines eb.buffer - 1
          let last_line := line eb.buffer new_lines
          { eb with cursor_row := new_lines,
                    cursor_col := last_line.length - 1,
                    modified := true }
        else e0
      { e1 with needs_response_check := false }
    | none => e0

/-- `AsyncCommandHandler::send_to_api`: the foreground part, up to (and
including) the decision to spawn the worker thread.  `log_err` models the
outcome of opening the log file (an external I/O effect); the returned
Bool is whether a worker thread was spawned. -/
def send_to_api (content : List Char) (log_err : Option String)
    (state : EditorState) : EditorState × Bool :=
  if content.isEmpty then
    (state.set_error ("Cannot send empty buffer. Please write the question"),
      false)
  else
    let state1 := { state with request_state := RequestState.Proccessing }
    match log_err with
    | none => (state1, true)
    | some err => (state1.set_error ("Failed to open log file: " ++ err), false)

/-- The spec's cursor invariant: `row < line_count` and
`col <= line_length(row)`, with line length subtracting the terminator when
present and never going below zero. -/
def CursorInvariant (e : Editor) : Prop :=
  e.cursor_row < len_lines e.buffer ∧
  e.cursor_col ≤ specLineLen (line e.buffer e.cursor_row)

/-- The weaker bound that the failing operations still guarantee: the
column may additionally sit just past the terminator-free text, up to the
full line length including the terminator. -/
def WeakCursorBound (e : Editor) : Prop :=
  e.cursor_row < len_lines e.buffer ∧
  e.cursor_col ≤ (line e.buffer e.cursor_row).length

theorem specLineLen_line_eq_tfLen (b : List Char) (r : Nat) :
    specLineLen (line b r) = tfLen (line b r) :=
  specLineLen_eq_tfLen (not_nl_mem_dropLast_line b r)

theorem weak_of_cursorInvariant {e : Editor} (h : CursorInvariant e) :
    WeakCursorBound e :=
  ⟨h.1, le_trans h.2 (specLineLen_le_length _)⟩

theorem clamp_cursor_invariant (e : Editor) :
    CursorInvariant (clamp_cursor e) := by
  have h1 := len_lines_pos e.buffer
  unfold clamp_cursor CursorInvariant
  dsimp only
  split
  · dsimp only
    omega
  · dsimp only
    constructor
    · split <;> omega
    · split
      · have h2 := sub_one_le_specLineLen (line e.buffer (len_lines e.buffer - 1))
        split <;> omega
      · have h2 := sub_one_le_specLineLen (line e.buffer e.cursor_row)
        split <;> omega

theorem move_cursor_up_invariant (e : Editor) (h : CursorInvariant e) :
    CursorInvariant (move_cursor_up e) := by
  obtain ⟨h1, h2⟩ := h
  unfold move_cursor_up
  split
  · unfold CursorInvariant
    dsimp only
    have h3 := sub_one_le_specLineLen (line e.buffer (e.cursor_row - 1))
    constructor
    · omega
    · split <;> omega
  · exact ⟨h1, h2⟩

theorem move_cursor_down_invariant (e : Editor) (h : CursorInvariant e) :
    CursorInvariant (move_cursor_down e) := by
  obtain ⟨h1, h2⟩ := h
  unfold move_cursor_down
  dsimp only
  split
  · split
    · rename_i hpos hrow
      refine ⟨?_, ?_⟩
      · show e.cursor_row + 1 < len_lines e.buffer
        omega
      · show _ ≤ specLineLen (line e.buffer (e.cursor_row + 1))
        have h3 := sub_one_le_specLineLen (line e.buffer (e.cursor_row + 1))
        have h4 : (if (line e.buffer (e.cursor_row + 1)).length > 0 then
              (line e.buffer (e.cursor_row + 1)).length - 1 else 0)
            = (line e.buffer (e.cursor_row + 1)).length - 1 := by
          split <;> omega
        dsimp only
        rw [h4]
        split <;> omega
    · exact ⟨h1, h2⟩
  · rename_i hne
    exact absurd (len_lines_pos e.buffer) hne

theorem move_cursor_left_invariant (e : Editor) (h : CursorInvariant e) :
    CursorInvariant (move_cursor_left e) := by
  obtain ⟨h1, h2⟩ := h
  unfold move_cursor_left
  split
  · refine ⟨h1, ?_⟩
    show e.cursor_col - 1 ≤ specLineLen (line e.buffer e.cursor_row)
    omega
  · split
    · unfold CursorInvariant
      dsimp only
      have h3 := sub_one_le_specLineLen (line e.buffer (e.cursor_row - 1))
      omega
    · exact ⟨h1, h2⟩

theorem move_to_end_of_line_invariant (e : Editor) :
    CursorInvariant (move_to_end_of_line e) :=
  clamp_cursor_invariant _

theorem move_to_start_of_line_invariant (e : Editor) (h : CursorInvariant e) :
    CursorInvariant (move_to_start_of_line e) :=
  ⟨h.1, Nat.zero_le _⟩

theorem move_to_start_of_buffer_invariant (e : Editor) :
    CursorInvariant (move_to_start_of_buffer e) :=
  ⟨len_lines_pos _, Nat.zero_le _⟩

theorem move_to_end_of_buffer_invariant (e : Editor) :
    CursorInvariant (move_to_end_of_buffer e) := by
  unfold move_to_end_of_buffer
  dsimp only
  split
  · exact ⟨len_lines_pos _, Nat.zero_le _⟩
  · exact clamp_cursor_invariant _

theorem cursorInvariant_fields (e : Editor) (r c : Nat)
    (hr : r < len_lines e.buffer) (hc : c ≤ specLineLen (line e.buffer r)) :
    CursorInvariant { e with cursor_row := r, cursor_col := c } := ⟨hr, hc⟩

theorem weakBound_fields (e : Editor) (r c : Nat)
    (hr : r < len_lines e.buffer) (hc : c ≤ (line e.buffer r).length) :
    WeakCursorBound { e with cursor_row := r, cursor_col := c } := ⟨hr, hc⟩

theorem cursorInvariant_invalidate (e : Editor) (l : Nat) :
    CursorInvariant (invalidate_syntax_at_line e l) ↔ CursorInvariant e :=
  Iff.rfl

theorem weakBound_invalidate (e : Editor) (l : Nat) :
    WeakCursorBound (invalidate_syntax_at_line e l) ↔ WeakCursorBound e :=
  Iff.rfl

theorem move_cursor_right_invariant (e : Editor) (h : CursorInvariant e)
    (hmode : e.mode ≠ Mode.Insert) :
    CursorInvariant (move_cursor_right e) := by
  obtain ⟨h1, h2⟩ := h
  have hpos := len_lines_pos e.buffer
  have h3 := sub_one_le_specLineLen (line e.buffer e.cursor_row)
  have h4 := sub_one_le_specLineLen (line e.buffer (e.cursor_row + 1))
  unfold move_cursor_right
  dsimp only
  rw [if_neg hmode, if_pos hpos]
  split
  · rename_i hlt
    exact cursorInvariant_fields e e.cursor_row (e.cursor_col + 1) h1 (by omega)
  · split
    · rename_i hlt hrow
      apply cursorInvariant_fields
      · omega
      · have hll : (if (line e.buffer (e.cursor_row + 1)).length > 0 then
              (line e.buffer (e.cursor_row + 1)).length - 1 else 0)
            = (line e.buffer (e.cursor_row + 1)).length - 1 := by
          split <;> omega
        rw [hll]
        split <;> omega
    · exact ⟨h1, h2⟩

theorem move_cursor_right_weak (e : Editor) (h : CursorInvariant e) :
    WeakCursorBound (move_cursor_right e) := by
  by_cases hmode : e.mode = Mode.Insert
  · obtain ⟨h1, h2⟩ := h
    have hpos := len_lines_pos e.buffer
    have hlen := tfLen_le_length (line e.buffer (e.cursor_row + 1))
    unfold move_cursor_right
    dsimp only
    rw [if_pos hmode, if_pos hpos]
    split
    · rename_i hlt
      exact weakBound_fields e e.cursor_row (e.cursor_col + 1) h1 (by omega)
    · split
      · rename_i hlt hrow
        apply weakBound_fields
        · omega
        · have hll : (if (line e.buffer (e.cursor_row + 1)).length > 0 then
                (line e.buffer (e.cursor_row + 1)).length - 1 else 0)
              = (line e.buffer (e.cursor_row + 1)).length - 1 := by
            split <;> omega
          rw [hll]
          split <;> omega
      · exact weak_of_cursorInvariant ⟨h1, h2⟩
  · exact weak_of_cursorInvariant (move_cursor_right_invariant e h hmode)

theorem insert_newline_invariant (e : Editor) (h : CursorInvariant e) :
    CursorInvariant (insert_newline e) := by
  obtain ⟨h1, h2⟩ := h
  unfold insert_newline
  dsimp only
  rw [cursorInvariant_invalidate]
  refine ⟨?_, Nat.zero_le _⟩
  show e.cursor_row + 1 < len_lines (insertAt e.buffer (get_char_idx e) [nl])
  have hcount := count_insertAt e.buffer (get_char_idx e) [nl] nl
  have hone : ([nl].count nl) = 1 := by simp
  unfold len_lines at h1 ⊢
  omega

theorem insert_char_invariant (e : Editor) (c : Char) (h : CursorInvariant e)
    (hch : c ≠ nl) : CursorInvariant (insert_char e c) := by
  obtain ⟨h1, h2⟩ := h
  rw [specLineLen_line_eq_tfLen] at h2
  have hline := line_insertAt e.buffer e.cursor_row e.cursor_col c h1 h2 hch
  have hcount := count_insertAt e.buffer (get_char_idx e) [c] nl
  have hzero : ([c].count nl) = 0 := by
    simp [List.count_cons, beq_iff_eq]
    intro hcontr
    exact hch hcontr
  have htf := tfLen_insertAt hch h2
  unfold insert_char
  dsimp only
  rw [cursorInvariant_invalidate]
  constructor
  · show e.cursor_row < len_lines (insertAt e.buffer (get_char_idx e) [c])
    unfold len_lines at h1 ⊢
    omega
  · show e.cursor_col + 1
      ≤ specLineLen (line (insertAt e.buffer (get_char_idx e) [c]) e.cursor_row)
    rw [specLineLen_line_eq_tfLen]
    unfold get_char_idx
    rw [hline, htf]
    omega

theorem position_from_char_idx_valid (b : List Char) (i : Nat) :
    (position_from_char_idx b i).1 < len_lines b ∧
    (position_from_char_idx b i).2
      ≤ specLineLen (line b (position_from_char_idx b i).1) := by
  unfold position_from_char_idx
  split
  · dsimp only
    have hpos := len_lines_pos b
    have h2 := sub_one_le_specLineLen (line b (len_lines b - 1))
    constructor
    · omega
    · split <;> omega
  · dsimp only
    rename_i hlt
    have hi : i < b.length := by
      unfold len_chars at hlt
      omega
    have hp := position_core b i hi
    refine ⟨char_to_line_lt_len_lines b i, ?_⟩
    rw [specLineLen_line_eq_tfLen]
    exact hp.2

theorem delete_selection_invariant (e : Editor) (h : CursorInvariant e) :
    CursorInvariant (delete_selection e) := by
  unfold delete_selection
  cases hsel : get_selection_range e with
  | none => exact h
  | some range =>
    dsimp only
    rw [cursorInvariant_invalidate]
    have hv := position_from_char_idx_valid
      (removeRange e.buffer range.1 range.2) range.1
    exact ⟨hv.1, hv.2⟩

theorem drop_getD_cons (b : List Char) (j : Nat) (hj : j < b.length) :
    b.drop j = b.getD j default :: b.drop (j + 1) := by
  rw [List.getD_eq_getElem b default hj]
  exact List.drop_eq_getElem_cons hj

theorem delete_char_at_cursor_invariant (e : Editor) (h : CursorInvariant e) :
    CursorInvariant (delete_char_at_cursor e) := by
  obtain ⟨h1, h2⟩ := h
  have h2' := h2
  rw [specLineLen_line_eq_tfLen] at h2'
  unfold delete_char_at_cursor get_char_idx
  dsimp only
  split
  case isFalse => exact ⟨h1, h2⟩
  case isTrue hidx =>
    rw [cursorInvariant_invalidate]
    have hlen : line_to_char e.buffer e.cursor_row + e.cursor_col
        < e.buffer.length := by
      unfold len_chars at hidx
      omega
    have hq := char_to_line_of_line_col e.buffer e.cursor_row e.cursor_col h1 h2'
    have hctl := hq.2
    unfold char_to_line at hctl
    have hcnt := count_removeRange_single e.buffer
      (line_to_char e.buffer e.cursor_row + e.cursor_col) hlen nl
    have hrow' : e.cursor_row < len_lines (removeRange e.buffer
        (line_to_char e.buffer e.cursor_row + e.cursor_col)
        (line_to_char e.buffer e.cursor_row + e.cursor_col + 1)) := by
      by_cases hch : e.buffer.getD
          (line_to_char e.buffer e.cursor_row + e.cursor_col) default = nl
      · have hdrop := drop_getD_cons e.buffer
          (line_to_char e.buffer e.cursor_row + e.cursor_col) hlen
        have hsplit := congrArg (List.count nl)
          (List.take_append_drop
            (line_to_char e.buffer e.cursor_row + e.cursor_col) e.buffer)
        rw [List.count_append, hdrop, List.count_cons, hch] at hsplit
        simp only [beq_self_eq_true, if_true] at hsplit
        rw [if_pos hch] at hcnt
        unfold len_lines
        omega
      · rw [if_neg hch] at hcnt
        unfold len_lines at h1 ⊢
        omega
    split
    case isFalse hguard => exact absurd hrow' hguard
    case isTrue hguard =>
      split
      case isTrue hjoin =>
        refine ⟨?_, ?_⟩
        · show e.cursor_row - 1 < len_lines (removeRange e.buffer
            (line_to_char e.buffer e.cursor_row + e.cursor_col)
            (line_to_char e.buffer e.cursor_row + e.cursor_col + 1))
          omega
        · exact sub_one_le_specLineLen _
      case isFalse hjoin =>
        split
        case isTrue hclamp =>
          refine ⟨hrow', ?_⟩
          exact sub_one_le_specLineLen _
        case isFalse hclamp =>
          refine ⟨hrow', ?_⟩
          show e.cursor_col ≤ specLineLen (line (removeRange e.buffer
            (line_to_char e.buffer e.cursor_row + e.cursor_col)
            (line_to_char e.buffer e.cursor_row + e.cursor_col + 1))
            e.cursor_row)
          have hs := sub_one_le_specLineLen (line (removeRange e.buffer
            (line_to_char e.buffer e.cursor_row + e.cursor_col)
            (line_to_char e.buffer e.cursor_row + e.cursor_col + 1))
            e.cursor_row)
          omega

theorem delete_char_before_cursor_weak (e : Editor) (h : CursorInvariant e) :
    WeakCursorBound (delete_char_before_cursor e) := by
  obtain ⟨h1, h2⟩ := h
  have h2' := h2
  rw [specLineLen_line_eq_tfLen] at h2'
  unfold delete_char_before_cursor get_char_idx
  dsimp only
  split
  case isFalse => exact weak_of_cursorInvariant ⟨h1, h2⟩
  case isTrue hidx =>
    rw [weakBound_invalidate]
    split
    case isTrue hcol =>
      have hd : e.cursor_col - 1 < tfLen (line e.buffer e.cursor_row) := by
        omega
      have hsurg := line_removeRange e.buffer e.cursor_row (e.cursor_col - 1)
        h1 hd
      have htf := tfLen_removeRange hd
      have htl := tfLen_le_length
        (removeRange (line e.buffer e.cursor_row)
          (e.cursor_col - 1) (e.cursor_col - 1 + 1))
      have hi1 : line_to_char e.buffer e.cursor_row + e.cursor_col - 1
          = line_to_char e.buffer e.cursor_row + (e.cursor_col - 1) := by omega
      have hi2 : line_to_char e.buffer e.cursor_row + e.cursor_col
          = line_to_char e.buffer e.cursor_row + (e.cursor_col - 1) + 1 := by
        omega
      rw [hi1, hi2]
      refine ⟨?_, ?_⟩
      · show e.cursor_row < len_lines (removeRange e.buffer
          (line_to_char e.buffer e.cursor_row + (e.cursor_col - 1))
          (line_to_char e.buffer e.cursor_row + (e.cursor_col - 1) + 1))
        unfold len_lines at h1 ⊢
        omega
      · show e.cursor_col - 1 ≤ (line (removeRange e.buffer
          (line_to_char e.buffer e.cursor_row + (e.cursor_col - 1))
          (line_to_char e.buffer e.cursor_row + (e.cursor_col - 1) + 1))
          e.cursor_row).length
        rw [hsurg.1]
        omega
    case isFalse hcol =>
      split
      case isTrue hrowpos =>
        have hnl := count_removeRange_before_line e.buffer e.cursor_row
          (by omega) h1
        have hc0 : e.cursor_col = 0 := by omega
        have hcount : e.cursor_row ≤ e.buffer.count nl := by
          unfold len_lines at h1
          omega
        rw [hc0, Nat.add_zero]
        refine ⟨?_, ?_⟩
        · show e.cursor_row - 1 < len_lines (removeRange e.buffer
            (line_to_char e.buffer e.cursor_row - 1)
            (line_to_char e.buffer e.cursor_row))
          unfold len_lines
          omega
        · show (line (removeRange e.buffer
            (line_to_char e.buffer e.cursor_row - 1)
            (line_to_char e.buffer e.cursor_row))
            (e.cursor_row - 1)).length ≤ _
          exact le_refl _
      case isFalse hrowpos =>
        exfalso
        have hr0 : e.cursor_row = 0 := by omega
        have hc0 : e.cursor_col = 0 := by omega
        rw [hr0, hc0, line_to_char_zero] at hidx
        omega

instance (e : Editor) : Decidable (CursorInvariant e) :=
  inferInstanceAs (Decidable (e.cursor_row < len_lines e.buffer ∧
    e.cursor_col ≤ specLineLen (line e.buffer e.cursor_row)))

instance (e : Editor) : Decidable (WeakCursorBound e) :=
  inferInstanceAs (Decidable (e.cursor_row < len_lines e.buffer ∧
    e.cursor_col ≤ (line e.buffer e.cursor_row).length))

/-- Test fixture: an editor state over a given buffer, cursor and mode,
with no selection, an empty cache, no highlighter and idle shared state. -/
def mkEditor (b : List Char) (row col : Nat) (m : Mode) : Editor :=
  { buffer := b, cursor_row := row, cursor_col := col, mode := m,
    modified := false, syntax_cache := SyntaxCache.new,
    syntax_highlighter := none, syntax_highlights := [],
    selection_start := none, selection_active := false,
    shared_state := EditorState.new, needs_response_check := false }

/-- C1 counterexample: from buffer `"a\nb\n"` with the cursor at `(1,0)` —
a state satisfying the invariant — Backspace joins the lines and sets
`cursor_col` to the merged line's full `len_chars()` (3), which exceeds
the terminator-free length (2) of the merged line `"ab\n"`. -/
theorem delete_char_before_cursor_breaks_invariant :
    CursorInvariant (mkEditor ['a', nl, 'b', nl] 1 0 Mode.Insert) ∧
    ¬ CursorInvariant
      (delete_char_before_cursor (mkEditor ['a', nl, 'b', nl] 1 0 Mode.Insert)) := by
  decide

/-- C1 (amended): every listed editing and cursor-motion operation except
`delete_char_before_cursor` and `move_cursor_right` in Insert mode
re-establishes the cursor invariant (`insert_char` for the non-terminator
characters that Insert-mode character keys deliver); those two exceptions
still re-establish the weaker bound `cursor_row < len_lines` and
`cursor_col` at most the full line length including the terminator. -/
theorem cursor_invariant_preservation :
    (∀ (e : Editor) (c : Char), CursorInvariant e → c ≠ nl →
      CursorInvariant (insert_char e c)) ∧
    (∀ e : Editor, CursorInvariant e → CursorInvariant (insert_newline e)) ∧
    (∀ e : Editor, CursorInvariant e →
      CursorInvariant (delete_char_at_cursor e)) ∧
    (∀ e : Editor, CursorInvariant e → CursorInvariant (delete_selection e)) ∧
    (∀ e : Editor, CursorInvariant e → CursorInvariant (move_cursor_up e)) ∧
    (∀ e : Editor, CursorInvariant e → CursorInvariant (move_cursor_down e)) ∧
    (∀ e : Editor, CursorInvariant e → CursorInvariant (move_cursor_left e)) ∧
    (∀ e : Editor, CursorInvariant e → e.mode ≠ Mode.Insert →
      CursorInvariant (move_cursor_right e)) ∧
    (∀ e : Editor, CursorInvariant (move_to_end_of_line e)) ∧
    (∀ e : Editor, CursorInvariant e →
      CursorInvariant (move_to_start_of_line e)) ∧
    (∀ e : Editor, CursorInvariant (move_to_start_of_buffer e)) ∧
    (∀ e : Editor, CursorInvariant (move_to_end_of_buffer e)) ∧
    (∀ e : Editor, CursorInvariant e →
      WeakCursorBound (delete_char_before_cursor e)) ∧
    (∀ e : Editor, CursorInvariant e → WeakCursorBound (move_cursor_right e)) :=
  ⟨insert_char_invariant, insert_newline_invariant,
    delete_char_at_cursor_invariant, delete_selection_invariant,
    move_cursor_up_invariant, move_cursor_down_invariant,
    move_cursor_left_invariant, move_cursor_right_invariant,
    move_to_end_of_line_invariant, move_to_start_of_line_invariant,
    move_to_start_of_buffer_invariant, move_to_end_of_buffer_invariant,
    delete_char_before_cursor_weak, move_cursor_right_weak⟩

/-- Witness for the amended C1 theorem at concrete states. -/
theorem cursor_invariant_preservation_witness :
    CursorInvariant (insert_char (mkEditor ['a', 'b'] 0 1 Mode.Insert) 'x') ∧
    CursorInvariant (delete_char_at_cursor (mkEditor ['a', 'b'] 0 0 Mode.Normal)) ∧
    CursorInvariant (move_cursor_right (mkEditor ['a', 'b', nl, 'c'] 0 2 Mode.Normal)) ∧
    WeakCursorBound
      (delete_char_before_cursor (mkEditor ['a', nl, 'b', nl] 1 0 Mode.Insert)) :=
  ⟨cursor_invariant_preservation.1 (mkEditor ['a', 'b'] 0 1 Mode.Insert) 'x'
      (by decide) (by decide),
    cursor_invariant_preservation.2.2.1 (mkEditor ['a', 'b'] 0 0 Mode.Normal)
      (by decide),
    cursor_invariant_preservation.2.2.2.2.2.2.2.1
      (mkEditor ['a', 'b', nl, 'c'] 0 2 Mode.Normal) (by decide) (by decide),
    cursor_invariant_preservation.2.2.2.2.2.2.2.2.2.2.2.2.1
      (mkEditor ['a', nl, 'b', nl] 1 0 Mode.Insert) (by decide)⟩

/-- C2 counterexample: on buffer `"ab"` the position `(0,2)` is within
document bounds (row `0 < 1` line, col `2 ≤ 2`, the terminator-free length
of `"ab"`), yet the roundtrip through `char_idx_from_position` (which gives
`2 = len_chars`) and `position_from_char_idx` (which returns the clamped
end-of-buffer position) yields `(0,1)`, not `(0,2)`. -/
theorem position_roundtrip_fails_at_buffer_end :
    (0 < len_lines ['a', 'b'] ∧
      2 ≤ specLineLen (line ['a', 'b'] 0)) ∧
    position_from_char_idx ['a', 'b']
      (char_idx_from_position ['a', 'b'] 0 2) = (0, 1) ∧
    ((0 : Nat), (1 : Nat)) ≠ ((0 : Nat), (2 : Nat)) := by
  decide

/-- C2 (amended): the conversions are mutual inverses away from the very
end of the buffer: `char_idx_from_position` after `position_from_char_idx`
recovers every valid character index `i < len_chars`, and
`position_from_char_idx` after `char_idx_from_position` recovers every
in-bounds `(row, col)` whose character index is strictly below
`len_chars` (the end-of-buffer index is clamped instead, as the
counterexample shows). -/
theorem char_position_roundtrip :
    (∀ (b : List Char) (i : Nat), i < len_chars b →
      char_idx_from_position b (position_from_char_idx b i).1
        (position_from_char_idx b i).2 = i) ∧
    (∀ (b : List Char) (r c : Nat), r < len_lines b →
      c ≤ specLineLen (line b r) →
      line_to_char b r + c < len_chars b →
      position_from_char_idx b (char_idx_from_position b r c) = (r, c)) := by
  constructor
  · intro b i hi
    unfold len_chars at hi
    have hp := position_core b i hi
    have hlt := char_to_line_lt_len_lines b i
    have hpos_eq : position_from_char_idx b i
        = (char_to_line b i, i - line_to_char b (char_to_line b i)) := by
      unfold position_from_char_idx
      rw [if_neg (by unfold len_chars; omega)]
    rw [hpos_eq]
    unfold char_idx_from_position
    rw [if_neg (by omega)]
    dsimp only
    have hcol_le : i - line_to_char b (char_to_line b i)
        ≤ (line b (char_to_line b i)).length :=
      le_trans hp.2 (tfLen_le_length _)
    rw [min_eq_left hcol_le]
    omega
  · intro b r c hr hc hlt
    rw [specLineLen_line_eq_tfLen] at hc
    have hq := char_to_line_of_line_col b r c hr hc
    unfold char_idx_from_position
    rw [if_neg (by omega)]
    dsimp only
    rw [min_eq_left (le_trans hc (tfLen_le_length _))]
    unfold position_from_char_idx
    rw [if_neg (by unfold len_chars at hlt ⊢; omega)]
    dsimp only
    rw [hq.2]
    simp only [Prod.mk.injEq, true_and]
    omega

/-- Witness for the amended C2 theorem on `"a\nb"`. -/
theorem char_position_roundtrip_witness :
    char_idx_from_position ['a', nl, 'b']
      (position_from_char_idx ['a', nl, 'b'] 2).1
      (position_from_char_idx ['a', nl, 'b'] 2).2 = 2 ∧
    position_from_char_idx ['a', nl, 'b']
      (char_idx_from_position ['a', nl, 'b'] 0 1) = (0, 1) :=
  ⟨char_position_roundtrip.1 ['a', nl, 'b'] 2 (by decide),
    char_position_roundtrip.2 ['a', nl, 'b'] 0 1 (by decide) (by decide)
      (by decide)⟩

/-- Fixture for C3: buffer `"a"` with line 0 both present in the style map
(with a planted `Keyword` style) and in the dirty set. -/
def staleCacheEditor : Editor :=
  { mkEditor ['a'] 0 0 Mode.Normal with
    syntax_cache :=
      { line_styles := fun i => if i = 0 then some [Style.Keyword] else none,
        dirty_lines := fun i => i == 0,
        last_content_length := 1 } }

/-- C3 counterexample: line 0 is dirty, yet the style query `get_style_at`
returns the stale cached `Keyword` style instead of the freshly recomputed
`Normal` style that `highlight_line` would produce. -/
theorem get_style_at_returns_stale_dirty_style :
    staleCacheEditor.syntax_cache.dirty_lines 0 = true ∧
    (get_style_at staleCacheEditor 0).2 = Style.Keyword ∧
    (highlight_line staleCacheEditor 0).2 = [Style.Normal] ∧
    Style.Keyword ≠ Style.Normal := by
  decide

/-- C3 (amended): only `highlight_line` (via `is_line_cached`) treats the
dirty set as invalidating — a dirty line is never considered cached there —
but `get_cached_style` (used by `get_style_at` and the renderer) reads the
style map alone, ignoring the dirty set entirely, so stale styles of dirty
lines are served. -/
theorem cached_style_ignores_dirty_set :
    (∀ (styles : Nat → Option (List Style)) (d1 d2 : Nat → Bool)
        (l1 l2 ln col : Nat),
      get_cached_style ⟨styles, d1, l1⟩ ln col
        = get_cached_style ⟨styles, d2, l2⟩ ln col) ∧
    (∀ (cache : SyntaxCache) (ln : Nat), cache.dirty_lines ln = true →
      is_line_cached cache ln = false) := by
  constructor
  · intro styles d1 d2 l1 l2 ln col
    rfl
  · intro cache ln h
    unfold is_line_cached
    rw [h]
    simp

/-- Witness for the amended C3 theorem on the concrete stale cache. -/
theorem cached_style_ignores_dirty_set_witness :
    get_cached_style ⟨staleCacheEditor.syntax_cache.line_styles,
        staleCacheEditor.syntax_cache.dirty_lines, 1⟩ 0 0
      = get_cached_style ⟨staleCacheEditor.syntax_cache.line_styles,
        fun _ => false, 0⟩ 0 0 ∧
    is_line_cached staleCacheEditor.syntax_cache 0 = false :=
  ⟨cached_style_ignores_dirty_set.1 staleCacheEditor.syntax_cache.line_styles
      staleCacheEditor.syntax_cache.dirty_lines (fun _ => false) 1 0 0 0,
    cached_style_ignores_dirty_set.2 staleCacheEditor.syntax_cache 0
      (by decide)⟩

theorem foldl_mark_range (s n : Nat) (cache : SyntaxCache) (i : Nat) :
    (((List.range n).foldl (fun acc k => mark_line_dirty acc (s + k))
        cache).dirty_lines i)
      = (cache.dirty_lines i || decide (s ≤ i ∧ i < s + n)) := by
  induction n generalizing cache with
  | zero =>
    simp only [List.range_zero, List.foldl_nil]
    have hd : decide (s ≤ i ∧ i < s + 0) = false := by
      rw [decide_eq_false_iff_not]
      omega
    rw [hd, Bool.or_false]
  | succ n ih =>
    rw [List.range_succ, List.foldl_append, List.foldl_cons, List.foldl_nil]
    have hml : ∀ (c : SyntaxCache) (k : Nat),
        (mark_line_dirty c k).dirty_lines i
          = if i = k then true else c.dirty_lines i := fun c k => rfl
    rw [hml, ih]
    by_cases hi : i = s + n
    · rw [if_pos hi]
      have hd : decide (s ≤ i ∧ i < s + (n + 1)) = true := by
        rw [decide_eq_true_eq]
        omega
      rw [hd, Bool.or_true]
    · rw [if_neg hi]
      have hd : decide (s ≤ i ∧ i < s + (n + 1))
          = decide (s ≤ i ∧ i < s + n) := by
        by_cases h2 : s ≤ i ∧ i < s + n
        · rw [decide_eq_true h2, decide_eq_true (by omega)]
        · rw [decide_eq_false h2, decide_eq_false (by omega)]
      rw [hd]

theorem foldl_mark_range_styles (s : Nat) (l : List Nat) (cache : SyntaxCache) :
    ((l.foldl (fun acc k => mark_line_dirty acc (s + k)) cache).line_styles
        = cache.line_styles) ∧
    ((l.foldl (fun acc k => mark_line_dirty acc (s + k))
        cache).last_content_length = cache.last_content_length) := by
  induction l generalizing cache with
  | nil => exact ⟨rfl, rfl⟩
  | cons x xs ih =>
    rw [List.foldl_cons]
    exact ih (mark_line_dirty cache (s + x))

theorem mark_range_dirty_dirty (cache : SyntaxCache) (s t i : Nat) :
    (mark_range_dirty cache s t).dirty_lines i
      = (cache.dirty_lines i || decide (s ≤ i ∧ i ≤ t)) := by
  unfold mark_range_dirty
  rw [foldl_mark_range]
  congr 1
  by_cases h : s ≤ i ∧ i ≤ t
  · rw [decide_eq_true (by omega), decide_eq_true h]
  · rw [decide_eq_false (by omega), decide_eq_false h]

theorem mark_range_dirty_styles (cache : SyntaxCache) (s t : Nat) :
    (mark_range_dirty cache s t).line_styles = cache.line_styles :=
  (foldl_mark_range_styles s (List.range (t + 1 - s)) cache).1

/-- Fixture for C6: a 10-line document with every line's styles planted in
the cache (as two `Keyword` entries) and nothing dirty; cursor on line 3 in
Insert mode. -/
def cachedTenLineEditor : Editor :=
  { mkEditor
      ['0', nl, '1', nl, '2', nl, '3', nl, '4', nl,
       '5', nl, '6', nl, '7', nl, '8', nl, '9'] 3 0 Mode.Insert with
    syntax_cache :=
      { line_styles := fun i =>
          if i < 10 then some [Style.Keyword, Style.Keyword] else none,
        dirty_lines := fun _ => false,
        last_content_length := 19 } }

/-- C6 counterexample: inserting a character on line 3 of the 10-line
document leaves line 4 dirty — `is_line_cached` is false and
`highlight_line` recomputes fresh `Normal` styles instead of returning the
previously cached `Keyword` styles — contradicting single-line
invalidation.  Lines before the edit (line 2) stay cached. -/
theorem insert_char_invalidates_following_lines :
    (insert_char cachedTenLineEditor 'x').syntax_cache.dirty_lines 4 = true ∧
    is_line_cached (insert_char cachedTenLineEditor 'x').syntax_cache 4
      = false ∧
    (highlight_line (insert_char cachedTenLineEditor 'x') 4).2
      = [Style.Normal, Style.Normal] ∧
    (insert_char cachedTenLineEditor 'x').syntax_cache.line_styles 4
      = some [Style.Keyword, Style.Keyword] ∧
    is_line_cached (insert_char cachedTenLineEditor 'x').syntax_cache 2
      = true := by
  decide

/-- C6 (amended): an in-place character insertion invalidates not a single
line but the whole inclusive range from the cursor row through
`len_lines()` of the post-insert buffer: the dirty flag of every index in
that range is set, indices outside it are untouched, and the stored style
vectors themselves are never modified. -/
theorem insert_char_invalidation_range :
    ∀ (e : Editor) (ch : Char) (i : Nat),
      (insert_char e ch).syntax_cache.line_styles i
        = e.syntax_cache.line_styles i ∧
      (insert_char e ch).syntax_cache.dirty_lines i
        = (e.syntax_cache.dirty_lines i
            || decide (e.cursor_row ≤ i ∧
                i ≤ len_lines (insertAt e.buffer (get_char_idx e) [ch]))) := by
  intro e ch i
  unfold insert_char invalidate_syntax_at_line
  dsimp only
  constructor
  · rw [mark_range_dirty_styles]
  · rw [mark_range_dirty_dirty]

/-- C7 counterexample: on the two-line buffer `"a\n"`,
`invalidate_syntax_at_line(0)` also marks index 2 dirty, which is not below
`total_lines = 2` — the marked range is inclusive of `total_lines`, not
the half-open `[line, total_lines)`. -/
theorem invalidate_marks_index_at_total_lines :
    len_lines ['a', nl] = 2 ∧
    (invalidate_syntax_at_line (mkEditor ['a', nl] 0 0 Mode.Normal)
        0).syntax_cache.dirty_lines 2 = true := by
  decide

/-- C7 (amended): `invalidate_syntax_at_line(line)` marks dirty exactly the
closed range `[line, total_lines]` — every index `i` is dirty afterwards
iff it was dirty before or `line ≤ i ≤ len_lines()` — and leaves the
stored style vectors unchanged. -/
theorem invalidate_syntax_marks_closed_range :
    ∀ (e : Editor) (l i : Nat),
      (invalidate_syntax_at_line e l).syntax_cache.dirty_lines i
        = (e.syntax_cache.dirty_lines i
            || decide (l ≤ i ∧ i ≤ len_lines e.buffer)) ∧
      (invalidate_syntax_at_line e l).syntax_cache.line_styles i
        = e.syntax_cache.line_styles i := by
  intro e l i
  unfold invalidate_syntax_at_line
  dsimp only
  constructor
  · rw [mark_range_dirty_dirty]
  · rw [mark_range_dirty_styles]

/-- C4 (confirmed): submitting empty content fails fast — no worker is
spawned, the pending-response slot is untouched, and the shared state
becomes the empty-buffer error; with nonempty content (and the log file
opening normally) the shared state transitions to `Proccessing` and the
worker thread is spawned. -/
theorem send_to_api_contract :
    (∀ (state : EditorState) (log_err : Option String),
      (send_to_api [] log_err state).2 = false ∧
      (send_to_api [] log_err state).1.api_response = state.api_response ∧
      (send_to_api [] log_err state).1.request_state
        = RequestState.Error
            ("Cannot send empty buffer. Please write the question")) ∧
    (∀ (state : EditorState) (content : List Char), content ≠ [] →
      (send_to_api content none state).1.request_state
        = RequestState.Proccessing ∧
      (send_to_api content none state).2 = true) := by
  constructor
  · intro state log_err
    exact ⟨rfl, rfl, rfl⟩
  · intro state content h
    have hne : content.isEmpty = false := by
      cases content
      · exact absurd rfl h
      · rfl
    unfold send_to_api
    simp only [hne, Bool.false_eq_true, if_false]
    exact ⟨trivial, trivial⟩

/-- Witness for C4 at concrete inputs. -/
theorem send_to_api_contract_witness :
    (send_to_api [] none EditorState.new).2 = false ∧
    (send_to_api ['h', 'i'] none EditorState.new).1.request_state
      = RequestState.Proccessing :=
  ⟨(send_to_api_contract.1 EditorState.new none).1,
    (send_to_api_contract.2 EditorState.new ['h', 'i'] (by decide)).1⟩

/-- C8 (confirmed, scenario A): on `"ab\ncd"` in Normal mode with the
cursor at `(0,2)`, Right wraps to `(1,0)`. -/
theorem move_cursor_right_wraps_to_next_line :
    (move_cursor_right
      (mkEditor ['a', 'b', nl, 'c', 'd'] 0 2 Mode.Normal)).cursor_row = 1 ∧
    (move_cursor_right
      (mkEditor ['a', 'b', nl, 'c', 'd'] 0 2 Mode.Normal)).cursor_col = 0 := by
  decide

/-- Fixture for C9 and C10: Select mode over `"abcdef"`, anchored at
`(0,0)` with the cursor at `(0,2)`. -/
def selectAbcdefEditor : Editor :=
  { mkEditor ['a', 'b', 'c', 'd', 'e', 'f'] 0 2 Mode.Select with
    selection_start := some (0, 0), selection_active := true }

/-- C9 (confirmed, scenario B): the normalized selection range is `[0,2)`;
deleting it leaves `"cdef"` with the cursor at `(0,0)`, the selection
cleared and the mode back to Normal. -/
theorem selection_range_and_delete_scenario :
    get_selection_range selectAbcdefEditor = some (0, 2) ∧
    (delete_selection selectAbcdefEditor).buffer = ['c', 'd', 'e', 'f'] ∧
    (delete_selection selectAbcdefEditor).cursor_row = 0 ∧
    (delete_selection selectAbcdefEditor).cursor_col = 0 ∧
    (delete_selection selectAbcdefEditor).mode = Mode.Normal ∧
    (delete_selection selectAbcdefEditor).selection_active = false ∧
    (delete_selection selectAbcdefEditor).selection_start = none := by
  decide

/-- C10 (confirmed): highlighting a line while a selection is active bakes
`Style.Selection` into the per-line cache; Esc in Select mode cancels the
selection without touching the cache, so a later `get_style_at` still
serves `Style.Selection` for a position that is no longer selected. -/
theorem stale_selection_style_after_cancel :
    (highlight_line selectAbcdefEditor 0).2
      = [Style.Selection, Style.Selection, Style.Normal, Style.Normal,
         Style.Normal, Style.Normal] ∧
    (handle_select_mode_esc
        (highlight_line selectAbcdefEditor 0).1).syntax_cache
      = (highlight_line selectAbcdefEditor 0).1.syntax_cache ∧
    is_position_selected
      (handle_select_mode_esc (highlight_line selectAbcdefEditor 0).1) 0 0
      (get_selection_range
        (handle_select_mode_esc (highlight_line selectAbcdefEditor 0).1))
      = false ∧
    (get_style_at
        (handle_select_mode_esc (highlight_line selectAbcdefEditor 0).1) 0).2
      = Style.Selection := by
  refine ⟨by decide, rfl, by decide, by decide⟩

theorem insertAt_len_append (b s : List Char) :
    insertAt b b.length s = b ++ s := by
  unfold insertAt
  simp

theorem update_syntax_highlighting_buffer (e : Editor) :
    (update_syntax_highlighting e).buffer = e.buffer := by
  unfold update_syntax_highlighting
  rcases h : e.syntax_highlighter with _ | f <;> simp [h]

theorem update_syntax_highlighting_shared (e : Editor) :
    (update_syntax_highlighting e).shared_state = e.shared_state := by
  unfold update_syntax_highlighting
  rcases h : e.syntax_highlighter with _ | f <;> simp [h]

/-- C5 (confirmed): consuming a successful nonempty pending response
appends its content to the buffer as it is at consumption time (so any
foreground edit made since submission precedes the response in the
document), repositions the cursor to the end of the document, clears the
"needs check" flag and empties the response slot. -/
theorem check_api_responses_appends_at_consumption :
    ∀ (e : Editor) (content : List Char),
      e.needs_response_check = true →
      e.shared_state.api_response = some ⟨content, none⟩ →
      content ≠ [] →
      (check_api_responses e).buffer = e.buffer ++ content ∧
      (check_api_responses e).cursor_row
        = len_lines (e.buffer ++ content) - 1 ∧
      (check_api_responses e).cursor_col
        = (line (e.buffer ++ content)
            (len_lines (e.buffer ++ content) - 1)).length - 1 ∧
      (check_api_responses e).needs_response_check = false ∧
      (check_api_responses e).shared_state.api_response = none := by
  intro e content hneeds hresp hcontent
  unfold check_api_responses
  rw [hneeds]
  simp only [Bool.not_true, Bool.false_eq_true, if_false]
  rw [hresp]
  simp only
  rw [if_pos ⟨trivial, hcontent⟩]
  have hbuf : insertAt e.buffer (len_chars e.buffer) content
      = e.buffer ++ content := by
    unfold len_chars
    exact insertAt_len_append e.buffer content
  refine ⟨?_, ?_, ?_, trivial, ?_⟩
  · dsimp only
    rw [update_syntax_highlighting_buffer]
    exact hbuf
  · dsimp only
    rw [update_syntax_highlighting_buffer, hbuf]
  · dsimp only
    rw [update_syntax_highlighting_buffer, hbuf]
  · dsimp only
    rw [update_syntax_highlighting_shared]

/-- Witness for C5: scenario D — after the foreground appended `"Y"`, the
response `"X"` lands after it, leaving the document tail `"YX"`. -/
theorem check_api_responses_appends_witness :
    (check_api_responses
      { mkEditor ['Q', nl, 'Y'] 0 0 Mode.Normal with
        needs_response_check := true,
        shared_state :=
          { request_state := RequestState.Idle,
            api_response := some ⟨['X'], none⟩ } }).buffer
      = ['Q', nl, 'Y', 'X'] := by
  have h := check_api_responses_appends_at_consumption
    { mkEditor ['Q', nl, 'Y'] 0 0 Mode.Normal with
      needs_response_check := true,
      shared_state :=
        { request_state := RequestState.Idle,
          api_response := some ⟨['X'], none⟩ } }
    ['X'] rfl rfl (by decide)
  exact h.1
